import Mathlib

/-!
# Verification of the relevance-propagation pipeline

A shallow embedding, in Lean 4, of the numeric core of the
`Neural.Network.Relevant.Propagation` repository, together with theorems
settling the behavioural claims about it.

Conventions used throughout:

* `numpy` float arrays are modelled as exact rational matrices, written as
  plain functions (`Fin F → Fin C → ℚ`, or `ℕ`-indexed functions when a
  dimension is data dependent); `numpy` elementwise square roots are
  modelled with `Real.sqrt` applied to the rational value.
* Python loops that mutate an accumulator array are embedded as `List.foldl`
  over the iteration range, the accumulator being passed explicitly.
* Fallible operations (`numpy.linalg.inv` raising `LinAlgError`, Python
  exceptions) are modelled with `Option` or with explicit outcome types.
-/

namespace NNRP

open Matrix

/-!
## Residue mapping — `modules/postprocessing.py`, `PostProcessor._map_feature_to_resids`

`feature_to_resids` is an `F×2` integer array giving the two residues of each
feature.  The source builds `index_to_resid` with `np.unique` (sorted unique
residue ids), inverts it into the dictionary `res_id_to_index`, and then loops
over features, adding each feature's importance row to the rows of both its
endpoint residues, and the square of its std row likewise (lines 156-179).
-/

/-- All residue ids appearing in `feature_to_resids` (the flattened array that
the source passes to `np.unique`, lines 158-159). -/
def all_resids {F : ℕ} (feature_to_resids : Fin F → ℕ × ℕ) : List ℕ :=
  ((List.finRange F).map fun f => [(feature_to_resids f).1, (feature_to_resids f).2]).flatten

/-- `index_to_resid`: sorted list of distinct residue ids, as produced by
`np.unique` (line 158). -/
def index_to_resid {F : ℕ} (feature_to_resids : Fin F → ℕ × ℕ) : List ℕ :=
  ((all_resids feature_to_resids).dedup).mergeSort (fun a b => decide (a ≤ b))

/-- `res_id_to_index[resid]`: the row index of a residue id in
`index_to_resid` (lines 163-165). -/
def res_id_to_index {F : ℕ} (feature_to_resids : Fin F → ℕ × ℕ) (resid : ℕ) : ℕ :=
  List.indexOf resid (index_to_resid feature_to_resids)

/-- In-place `M[r, :] += v` on a row-indexed accumulator array. -/
def add_to_row {C : ℕ} (M : ℕ → Fin C → ℚ) (r : ℕ) (v : Fin C → ℚ) : ℕ → Fin C → ℚ :=
  fun r' c => if r' = r then M r' c + v c else M r' c

/-- One iteration of the feature loop (lines 168-175): the row `rel f` is
added to the rows of both endpoint residues of feature `f`. -/
def map_step {F C : ℕ} (feature_to_resids : Fin F → ℕ × ℕ) (rel : Fin F → Fin C → ℚ)
    (M : ℕ → Fin C → ℚ) (f : Fin F) : ℕ → Fin C → ℚ :=
  add_to_row
    (add_to_row M (res_id_to_index feature_to_resids (feature_to_resids f).1) (rel f))
    (res_id_to_index feature_to_resids (feature_to_resids f).2) (rel f)

/-- The accumulation loop of `_map_feature_to_resids` run on an arbitrary
per-feature matrix `rel`.  With `rel := feature_importances` this is
`importance_mapped_to_resids`; with `rel := std_feature_importances ** 2` it
is the pre-`sqrt` value of `std_importance_mapped_to_resids` (both
accumulated by the same loop in the source). -/
def mapped_to_resids {F C : ℕ} (feature_to_resids : Fin F → ℕ × ℕ)
    (rel : Fin F → Fin C → ℚ) : ℕ → Fin C → ℚ :=
  (List.finRange F).foldl (map_step feature_to_resids rel) (fun _ _ => 0)

/-- `importance_mapped_to_resids` (lines 166, 172-173, 178). -/
def importance_mapped_to_resids {F C : ℕ} (feature_to_resids : Fin F → ℕ × ℕ)
    (feature_importances : Fin F → Fin C → ℚ) : ℕ → Fin C → ℚ :=
  mapped_to_resids feature_to_resids feature_importances

/-- The sum of squared std rows accumulated by lines 174-175, before the
final elementwise square root of line 176. -/
def std_sq_mapped_to_resids {F C : ℕ} (feature_to_resids : Fin F → ℕ × ℕ)
    (std_feature_importances : Fin F → Fin C → ℚ) : ℕ → Fin C → ℚ :=
  mapped_to_resids feature_to_resids (fun f c => (std_feature_importances f c) ^ 2)

/-- `std_importance_mapped_to_resids` after the elementwise
`np.sqrt` of line 176. -/
noncomputable def std_importance_mapped_to_resids {F C : ℕ}
    (feature_to_resids : Fin F → ℕ × ℕ)
    (std_feature_importances : Fin F → Fin C → ℚ) : ℕ → Fin C → ℝ :=
  fun r c =>
    Real.sqrt ((std_sq_mapped_to_resids feature_to_resids std_feature_importances r c : ℚ) : ℝ)

lemma add_to_row_apply {C : ℕ} (M : ℕ → Fin C → ℚ) (r : ℕ) (v : Fin C → ℚ)
    (r' : ℕ) (c : Fin C) :
    add_to_row M r v r' c = M r' c + (if r' = r then v c else 0) := by
  unfold add_to_row
  split <;> simp

lemma foldl_map_step {F C : ℕ} (feature_to_resids : Fin F → ℕ × ℕ)
    (rel : Fin F → Fin C → ℚ) (l : List (Fin F)) (M : ℕ → Fin C → ℚ)
    (r : ℕ) (c : Fin C) :
    (l.foldl (map_step feature_to_resids rel) M) r c
      = M r c + (l.map (fun f =>
          (if r = res_id_to_index feature_to_resids (feature_to_resids f).1 then rel f c else 0)
          + (if r = res_id_to_index feature_to_resids (feature_to_resids f).2 then rel f c else 0))).sum := by
  induction l generalizing M with
  | nil => simp
  | cons f t ih =>
      rw [List.foldl_cons, ih]
      simp only [map_step, add_to_row_apply, List.map_cons, List.sum_cons]
      ring

lemma mem_index_to_resid_iff {F : ℕ} (feature_to_resids : Fin F → ℕ × ℕ) (x : ℕ) :
    x ∈ index_to_resid feature_to_resids ↔ x ∈ all_resids feature_to_resids := by
  unfold index_to_resid
  rw [List.mem_mergeSort, List.mem_dedup]

lemma endpoint_fst_mem {F : ℕ} (feature_to_resids : Fin F → ℕ × ℕ) (f : Fin F) :
    (feature_to_resids f).1 ∈ index_to_resid feature_to_resids := by
  rw [mem_index_to_resid_iff]
  unfold all_resids
  rw [List.mem_flatten]
  exact ⟨[(feature_to_resids f).1, (feature_to_resids f).2],
    List.mem_map_of_mem _ (List.mem_finRange f), by simp⟩

lemma endpoint_snd_mem {F : ℕ} (feature_to_resids : Fin F → ℕ × ℕ) (f : Fin F) :
    (feature_to_resids f).2 ∈ index_to_resid feature_to_resids := by
  rw [mem_index_to_resid_iff]
  unfold all_resids
  rw [List.mem_flatten]
  exact ⟨[(feature_to_resids f).1, (feature_to_resids f).2],
    List.mem_map_of_mem _ (List.mem_finRange f), by simp⟩

lemma res_id_to_index_eq_iff {F : ℕ} (feature_to_resids : Fin F → ℕ × ℕ)
    {e ρ : ℕ} (he : e ∈ index_to_resid feature_to_resids) :
    res_id_to_index feature_to_resids e = res_id_to_index feature_to_resids ρ ↔ e = ρ := by
  by_cases hρ : ρ ∈ index_to_resid feature_to_resids
  · exact List.indexOf_inj he hρ
  · constructor
    · intro h
      exfalso
      have h1 : res_id_to_index feature_to_resids e < (index_to_resid feature_to_resids).length :=
        List.indexOf_lt_length.2 he
      have h2 : res_id_to_index feature_to_resids ρ = (index_to_resid feature_to_resids).length :=
        List.indexOf_eq_length.2 hρ
      rw [h, h2] at h1
      exact lt_irrefl _ h1
    · intro h
      subst h
      exact absurd he hρ

/-- Closed form of the accumulation loop: the row of residue `ρ` holds, for
each cluster, the sum over features of `rel`, each feature counted once per
endpoint equal to `ρ`. -/
lemma mapped_to_resids_closed_form {F C : ℕ} (feature_to_resids : Fin F → ℕ × ℕ)
    (rel : Fin F → Fin C → ℚ) (ρ : ℕ) (c : Fin C) :
    mapped_to_resids feature_to_resids rel (res_id_to_index feature_to_resids ρ) c
      = ∑ f : Fin F,
          (((if (feature_to_resids f).1 = ρ then 1 else 0)
            + (if (feature_to_resids f).2 = ρ then 1 else 0) : ℚ)) * rel f c := by
  unfold mapped_to_resids
  rw [foldl_map_step]
  have hcond : ∀ (f : Fin F),
      ((if res_id_to_index feature_to_resids ρ
            = res_id_to_index feature_to_resids (feature_to_resids f).1 then rel f c else 0)
        + (if res_id_to_index feature_to_resids ρ
            = res_id_to_index feature_to_resids (feature_to_resids f).2 then rel f c else 0))
      = (((if (feature_to_resids f).1 = ρ then 1 else 0)
            + (if (feature_to_resids f).2 = ρ then 1 else 0) : ℚ)) * rel f c := by
    intro f
    have h1 : (res_id_to_index feature_to_resids ρ
          = res_id_to_index feature_to_resids (feature_to_resids f).1)
        ↔ ((feature_to_resids f).1 = ρ) := by
      rw [eq_comm]
      exact res_id_to_index_eq_iff feature_to_resids (endpoint_fst_mem feature_to_resids f)
    have h2 : (res_id_to_index feature_to_resids ρ
          = res_id_to_index feature_to_resids (feature_to_resids f).2)
        ↔ ((feature_to_resids f).2 = ρ) := by
      rw [eq_comm]
      exact res_id_to_index_eq_iff feature_to_resids (endpoint_snd_mem feature_to_resids f)
    rw [if_congr h1 rfl rfl, if_congr h2 rfl rfl]
    by_cases hA : (feature_to_resids f).1 = ρ <;> by_cases hB : (feature_to_resids f).2 = ρ <;>
      simp [hA, hB] <;> ring
  simp only [hcond]
  rw [Fin.sum_univ_def]
  simp

/-- **C1.** Residue-mapped importance: for every residue id `ρ` and cluster
`c`, the entry of `importance_mapped_to_resids` in the row of `ρ` equals the
sum over features of `feature_importances[f, c]`, each feature contributing
its full value once for each of its two endpoint residues equal to `ρ` (so a
single feature connecting residues `(a, b)` with importance `v` gives `v` to
`a` and `v` to `b`, and a feature is double counted on a row only if both its
endpoints are that same residue). -/
theorem importance_mapped_to_resids_eq_sum {F C : ℕ}
    (feature_to_resids : Fin F → ℕ × ℕ)
    (feature_importances : Fin F → Fin C → ℚ) (ρ : ℕ) (c : Fin C) :
    importance_mapped_to_resids feature_to_resids feature_importances
        (res_id_to_index feature_to_resids ρ) c
      = ∑ f : Fin F,
          (((if (feature_to_resids f).1 = ρ then 1 else 0)
            + (if (feature_to_resids f).2 = ρ then 1 else 0) : ℚ))
            * feature_importances f c :=
  mapped_to_resids_closed_form feature_to_resids feature_importances ρ c

/-- **C2.** Std propagation: for every residue id `ρ` and cluster `c`, the
mapped std entry equals the square root of the sum of the squared
`std_feature_importances[f, c]` over incident features, a feature being
incident once for each of its two endpoint residues equal to `ρ`. -/
theorem std_importance_mapped_to_resids_eq_sqrt_sum_sq {F C : ℕ}
    (feature_to_resids : Fin F → ℕ × ℕ)
    (std_feature_importances : Fin F → Fin C → ℚ) (ρ : ℕ) (c : Fin C) :
    std_importance_mapped_to_resids feature_to_resids std_feature_importances
        (res_id_to_index feature_to_resids ρ) c
      = Real.sqrt (((∑ f : Fin F,
          (((if (feature_to_resids f).1 = ρ then 1 else 0)
            + (if (feature_to_resids f).2 = ρ then 1 else 0) : ℚ))
            * (std_feature_importances f c) ^ 2 : ℚ) : ℝ)) := by
  unfold std_importance_mapped_to_resids std_sq_mapped_to_resids
  rw [mapped_to_resids_closed_form]

/-!
## PostProcessor construction — `modules/postprocessing.py`, `PostProcessor.__init__`

With `rescale_results=False` and `filter_results=False` the constructor binds
`self.feature_importances = extractor.feature_importance` and
`self.std_feature_importances = extractor.std_feature_importance` (lines
45-46) without copying, so both names refer to the same array objects as the
extractor's fields.  Lines 67-69 then compute
`indices_filtered = np.where(self.feature_importances[:, 0] == -1)[0]` — the
test looks only at column `0` — and assign zeros into those rows of both
arrays in place.  Matrices are `ℕ`-indexed here; the aliasing is modelled by
returning the post-write arrays both as the post-processor's fields and as
the extractor's fields.
-/

/-- The in-place zeroing of lines 67-69: every row whose **first-column**
entry equals `-1` is overwritten with zeros (in the matrix `M`, with the
sentinel test made on `fi`). -/
def zero_filtered_rows (fi M : ℕ → ℕ → ℚ) : ℕ → ℕ → ℚ :=
  fun r c => if fi r 0 = -1 then 0 else M r c

/-- Array state after `PostProcessor.__init__`: the post-processor's two
arrays and the extractor's two arrays. -/
structure PPInitArrays where
  pp_feature_importances : ℕ → ℕ → ℚ
  pp_std_feature_importances : ℕ → ℕ → ℚ
  ext_feature_importance : ℕ → ℕ → ℚ
  ext_std_feature_importance : ℕ → ℕ → ℚ

/-- `PostProcessor.__init__` with `rescale_results=False`,
`filter_results=False` (lines 44-46 and 66-69): the constructor's arrays
alias the extractor's, so the in-place row zeroing is visible through both. -/
def postprocessor_init_arrays (fi std : ℕ → ℕ → ℚ) : PPInitArrays :=
  let fi' := zero_filtered_rows fi fi
  let std' := zero_filtered_rows fi std
  ⟨fi', std', fi', std'⟩

/-- **C10.** With `rescale_results=False` and `filter_results=False`:
(1) the extractor's arrays after construction are the very arrays held by the
post-processor (aliasing); (2) a row is zeroed exactly when its first-column
entry is `-1`, in both the importance and the std array; (3) hence a row
whose first-column entry is not `-1` is left intact even if `-1` occurs in a
later column; and (4) construction mutates the extractor's importance array
whenever a sentinel row holds a nonzero entry. -/
theorem postprocessor_init_aliases_and_zeroes (fi std : ℕ → ℕ → ℚ) :
    ((postprocessor_init_arrays fi std).ext_feature_importance
        = (postprocessor_init_arrays fi std).pp_feature_importances
      ∧ (postprocessor_init_arrays fi std).ext_std_feature_importance
        = (postprocessor_init_arrays fi std).pp_std_feature_importances)
    ∧ (∀ r c, (postprocessor_init_arrays fi std).ext_feature_importance r c
          = if fi r 0 = -1 then 0 else fi r c)
    ∧ (∀ r c, (postprocessor_init_arrays fi std).ext_std_feature_importance r c
          = if fi r 0 = -1 then 0 else std r c)
    ∧ (∀ r, fi r 0 ≠ -1 →
        ∀ c, (postprocessor_init_arrays fi std).ext_feature_importance r c = fi r c)
    ∧ (∀ r c, fi r 0 = -1 → fi r c ≠ 0 →
        (postprocessor_init_arrays fi std).ext_feature_importance r c ≠ fi r c) := by
  refine ⟨⟨rfl, rfl⟩, fun r c => rfl, fun r c => rfl, ?_, ?_⟩
  · intro r hr c
    simp [postprocessor_init_arrays, zero_filtered_rows, hr]
  · intro r c h0 hv
    simp only [postprocessor_init_arrays, zero_filtered_rows, h0, if_true]
    exact fun h => hv h.symm

/-- Concrete matrix for the C10 witness: row 0 has the sentinel `-1` in its
first column and the value `5` in column 1; row 1 has `-1` only in column 1. -/
def c10_fi : ℕ → ℕ → ℚ :=
  fun r c =>
    if r = 0 then (if c = 0 then -1 else 5)
    else if r = 1 then (if c = 0 then 3 else -1)
    else 0

theorem postprocessor_init_aliases_and_zeroes_witness :
    c10_fi 1 0 ≠ -1
    ∧ (∀ c, (postprocessor_init_arrays c10_fi c10_fi).ext_feature_importance 1 c = c10_fi 1 c)
    ∧ c10_fi 0 0 = -1 ∧ c10_fi 0 1 ≠ 0
    ∧ (postprocessor_init_arrays c10_fi c10_fi).ext_feature_importance 0 1 ≠ c10_fi 0 1 := by
  have h := postprocessor_init_aliases_and_zeroes c10_fi c10_fi
  exact ⟨by norm_num [c10_fi],
    h.2.2.2.1 1 (by norm_num [c10_fi]),
    by norm_num [c10_fi], by norm_num [c10_fi],
    h.2.2.2.2 0 1 (by norm_num [c10_fi]) (by norm_num [c10_fi])⟩

/-!
## ELM configuration check — `modules/feature_extraction/elm_feature_extractor.py`,
`SingleLayerELMClassifier.__init__` (lines 36-45)

The constructor runs, for `hidden_layer_sizes`:

```
if isinstance(hidden_layer_sizes, int):
    hidden_layer_sizes = (hidden_layer_sizes)
if len(hidden_layer_sizes) != 1:
    raise Exception("ELM currently only support one layer")
```

In Python `(x)` is not a tuple — it is `x` itself — so the first branch is a
no-op and an integer argument (including the declared default
`hidden_layer_sizes=(1000)`, which is the int `1000`) reaches `len(...)`,
which raises `TypeError` for an int.  The argument is modelled as either a
Python int or a tuple of ints, and the outcome as accepted / the explicit
`Exception` of line 40 / the implicit `TypeError` from `len` of an int.
-/

/-- A Python value passed as `hidden_layer_sizes`: an int or a tuple. -/
inductive PyHiddenLayerSizes where
  | int (n : ℤ)
  | tuple (sizes : List ℤ)
deriving DecidableEq

/-- The Python no-op `(x)` parenthesisation of line 38. -/
def parenthesize : PyHiddenLayerSizes → PyHiddenLayerSizes :=
  fun h => h

/-- Python `len`: defined on tuples, raises `TypeError` on ints. -/
def py_len : PyHiddenLayerSizes → Option ℕ
  | .int _ => none
  | .tuple sizes => some sizes.length

/-- Outcome of `SingleLayerELMClassifier.__init__`. -/
inductive ElmInitOutcome where
  | accepted (sizes : PyHiddenLayerSizes)
  | multiLayerError
  | pyTypeError
deriving DecidableEq

/-- `SingleLayerELMClassifier.__init__` (lines 36-45), hidden-layer check. -/
def single_layer_elm_init (hidden_layer_sizes : PyHiddenLayerSizes) : ElmInitOutcome :=
  let h := if (match hidden_layer_sizes with | .int _ => true | _ => false)
           then parenthesize hidden_layer_sizes else hidden_layer_sizes
  match py_len h with
  | none => ElmInitOutcome.pyTypeError
  | some l => if l ≠ 1 then ElmInitOutcome.multiLayerError else ElmInitOutcome.accepted h

/-- **C6** (code bug): the default integer configuration
`hidden_layer_sizes=(1000)` — the Python int `1000` — is **not** accepted:
`(hidden_layer_sizes)` does not build a tuple, so `len` is applied to an int
and the constructor dies with a `TypeError` instead of accepting the
single-hidden-layer configuration; a genuine one-element tuple is accepted
and a two-element tuple raises the multi-layer `Exception`. -/
theorem single_layer_elm_init_default_raises :
    single_layer_elm_init (PyHiddenLayerSizes.int 1000) = ElmInitOutcome.pyTypeError
    ∧ single_layer_elm_init (PyHiddenLayerSizes.int 1000)
        ≠ ElmInitOutcome.accepted (PyHiddenLayerSizes.int 1000)
    ∧ single_layer_elm_init (PyHiddenLayerSizes.tuple [1000])
        = ElmInitOutcome.accepted (PyHiddenLayerSizes.tuple [1000])
    ∧ single_layer_elm_init (PyHiddenLayerSizes.tuple [10, 10])
        = ElmInitOutcome.multiLayerError := by
  refine ⟨rfl, ?_, rfl, rfl⟩
  decide

/-!
## Random forest importance — `modules/feature_extraction/random_forest_feature_extractor.py`

`get_feature_importance` (lines 35-36) returns the trained model's native
`feature_importances_` vector unchanged.
-/

/-- `RandomForestFeatureExtractor.get_feature_importance` (lines 35-36):
the model's impurity-based `feature_importances_` vector is returned as is. -/
def rf_get_feature_importance {F : ℕ} (feature_importances_ : Fin F → ℚ) : Fin F → ℚ :=
  feature_importances_

/-- Modelled from the spec: the cross-validation harness
(`modules/feature_extraction/feature_extractor.py`, absent from the sources)
records each split's importance as an `F×C` matrix under the common contract
`get_feature_importance(model, data, labels) -> F×C matrix`; a 1-D
per-feature vector is, in the spec's words, broadcast identically across
clusters (§4.2). -/
def broadcast_across_clusters {F : ℕ} (C : ℕ) (v : Fin F → ℚ) : Fin F → Fin C → ℚ :=
  fun f _ => v f

/-- **C4.** The `F×C` importance recorded for a random-forest split has all
`C` columns identical, each equal to the model's native
`feature_importances_` vector. -/
theorem rf_feature_importance_columns_identical {F C : ℕ}
    (feature_importances_ : Fin F → ℚ) (f : Fin F) (c c' : Fin C) :
    broadcast_across_clusters C (rf_get_feature_importance feature_importances_) f c
        = feature_importances_ f
    ∧ broadcast_across_clusters C (rf_get_feature_importance feature_importances_) f c
        = broadcast_across_clusters C (rf_get_feature_importance feature_importances_) f c' :=
  ⟨rfl, rfl⟩

/-!
## MLP relevance averaging — `modules/feature_extraction/mlp_feature_extractor.py`,
`MlpFeatureExtractor.get_feature_importance` (lines 49-72)

The LRP step (`modules/relevance_propagation.py`, absent from the sources) is
treated as an opaque input `relevance : N×F`; the claim concerns the
averaging loops of lines 60-72, which are embedded below: first the frames
per cluster are counted via `labels[frame].argmax()`, then each frame's
relevance row is accumulated into its cluster's column, divided by that
cluster's frame count.
-/

/-- `np.argmax` over a row: the first index attaining the maximum (numpy
returns the first occurrence). -/
def np_argmax {C : ℕ} [NeZero C] (row : Fin C → ℚ) : Fin C :=
  (List.finRange C).foldl (fun best j => if row best < row j then j else best) 0

/-- The counting loop of lines 64-67: `frames_per_cluster[argmax] += 1`. -/
def frames_per_cluster {N C : ℕ} [NeZero C] (labels : Fin N → Fin C → ℚ) : Fin C → ℚ :=
  (List.finRange N).foldl
    (fun acc i => fun c => if c = np_argmax (labels i) then acc c + 1 else acc c)
    (fun _ => 0)

/-- The accumulation loop of lines 69-72:
`result[:, cluster_idx] += rel / frames_per_cluster[cluster_idx]`. -/
def mlp_get_feature_importance {N Fd C : ℕ} [NeZero C]
    (relevance : Fin N → Fin Fd → ℚ) (labels : Fin N → Fin C → ℚ) :
    Fin Fd → Fin C → ℚ :=
  (List.finRange N).foldl
    (fun M i => fun f c =>
      if c = np_argmax (labels i)
      then M f c + relevance i f / frames_per_cluster labels c
      else M f c)
    (fun _ _ => 0)

lemma frames_per_cluster_foldl {N C : ℕ} [NeZero C] (labels : Fin N → Fin C → ℚ)
    (l : List (Fin N)) (A : Fin C → ℚ) (c : Fin C) :
    (l.foldl (fun acc i => fun c => if c = np_argmax (labels i) then acc c + 1 else acc c) A) c
      = A c + ((l.filter (fun i => decide (np_argmax (labels i) = c))).length : ℚ) := by
  induction l generalizing A with
  | nil => simp
  | cons i t ih =>
      rw [List.foldl_cons, ih]
      by_cases h : np_argmax (labels i) = c
      · simp [List.filter_cons, h]
        ring
      · simp [List.filter_cons, h, Ne.symm h]

lemma length_filter_cast_sum {α : Type} (l : List α) (p : α → Prop) [DecidablePred p] :
    (((l.filter (fun a => decide (p a))).length : ℕ) : ℚ)
      = (l.map (fun a => if p a then (1 : ℚ) else 0)).sum := by
  induction l with
  | nil => simp
  | cons a t ih =>
      by_cases h : p a
      · have hb : (decide (p a)) = true := decide_eq_true h
        simp only [List.filter_cons, hb, if_true, List.length_cons,
          List.map_cons, List.sum_cons, if_pos h]
        push_cast
        rw [ih]
        ring
      · have hb : (decide (p a)) = false := decide_eq_false h
        simp [List.filter_cons, hb, h, ih]

lemma frames_per_cluster_eq_card {N C : ℕ} [NeZero C] (labels : Fin N → Fin C → ℚ)
    (c : Fin C) :
    frames_per_cluster labels c
      = ((Finset.univ.filter (fun i => np_argmax (labels i) = c)).card : ℚ) := by
  unfold frames_per_cluster
  rw [frames_per_cluster_foldl]
  rw [zero_add]
  rw [length_filter_cast_sum]
  rw [Finset.card_filter]
  push_cast
  rw [Fin.sum_univ_def]

lemma mlp_foldl_closed {N Fd C : ℕ} [NeZero C]
    (relevance : Fin N → Fin Fd → ℚ) (labels : Fin N → Fin C → ℚ)
    (l : List (Fin N)) (M : Fin Fd → Fin C → ℚ) (f : Fin Fd) (c : Fin C) :
    (l.foldl (fun M i => fun f c =>
        if c = np_argmax (labels i)
        then M f c + relevance i f / frames_per_cluster labels c
        else M f c) M) f c
      = M f c + (l.map (fun i =>
          if np_argmax (labels i) = c
          then relevance i f / frames_per_cluster labels c else 0)).sum := by
  induction l generalizing M with
  | nil => simp
  | cons i t ih =>
      rw [List.foldl_cons, ih]
      by_cases h : np_argmax (labels i) = c
      · simp only [List.map_cons, List.sum_cons, h, if_true, if_pos h.symm]
        ring
      · simp only [List.map_cons, List.sum_cons, h, if_false, if_neg (Ne.symm h)]
        ring

/-- **C7.** Column `c` of `MlpFeatureExtractor.get_feature_importance` is the
arithmetic mean of the relevance rows of the frames whose label argmax is
`c`: each such frame's relevance is accumulated into bucket `c` and divided
by the number of frames in that bucket.  (For a cluster with no frames both
sides are `0`, by the `x / 0 = 0` convention of `ℚ`.) -/
theorem mlp_feature_importance_is_cluster_mean {N Fd C : ℕ} [NeZero C]
    (relevance : Fin N → Fin Fd → ℚ) (labels : Fin N → Fin C → ℚ)
    (f : Fin Fd) (c : Fin C) :
    mlp_get_feature_importance relevance labels f c
      = (∑ i ∈ Finset.univ.filter (fun i => np_argmax (labels i) = c), relevance i f)
        / ((Finset.univ.filter (fun i => np_argmax (labels i) = c)).card : ℚ) := by
  unfold mlp_get_feature_importance
  rw [mlp_foldl_closed]
  rw [zero_add]
  simp only [frames_per_cluster_eq_card]
  rw [Finset.sum_div]
  rw [Finset.sum_filter]
  rw [Fin.sum_univ_def]

/-- Concrete two-frame fixture for the C7 witness: frame 0 belongs to
cluster 0, frame 1 to cluster 1. -/
def c7_labels : Fin 2 → Fin 2 → ℚ :=
  fun i c => if c = i then 1 else 0

/-- Concrete relevance matrix for the C7 witness. -/
def c7_relevance : Fin 2 → Fin 1 → ℚ :=
  fun i _ => if i = 0 then 3 else 5

theorem mlp_feature_importance_is_cluster_mean_witness :
    mlp_get_feature_importance c7_relevance c7_labels 0 0
      = (∑ i ∈ Finset.univ.filter (fun i => np_argmax (c7_labels i) = 0), c7_relevance i 0)
        / ((Finset.univ.filter (fun i => np_argmax (c7_labels i) = 0)).card : ℚ)
    ∧ mlp_get_feature_importance c7_relevance c7_labels 0 0 = 3 := by
  refine ⟨mlp_feature_importance_is_cluster_mean c7_relevance c7_labels 0 0, ?_⟩
  rw [mlp_feature_importance_is_cluster_mean c7_relevance c7_labels 0 0]
  rw [show (Finset.univ.filter (fun i => np_argmax (c7_labels i) = 0))
        = ({0} : Finset (Fin 2)) from by decide]
  simp [c7_relevance]

/-!
## PCA component selection — `modules/feature_extraction/pca_feature_extractor.py`

`_get_n_components` (lines 43-54) starts with `n_components = 1` and
`total_var_explained = explained_var[0]`, then for `i in range(1, len)` adds
component `i` exactly when `total_var_explained + explained_var[i] <
self.variance_cutoff and i < n_clusters`; a skipped index does **not** stop
the loop, so later (smaller) ratios can still be added, and the running total
is the sum of the *accepted* ratios only.  The constructor hard-codes
`self.variance_cutoff = 0.75` (line 34), ignoring its `variance_cutoff`
argument.  `_collect_components` (lines 56-58) returns the `F×n` matrix
whose `j`-th column is `|components_[j] * explained_variance_[j]|` — the
columns are not summed.
-/

/-- The hard-coded `self.variance_cutoff = 0.75` of line 34. -/
def pca_variance_cutoff : ℚ := 3 / 4

/-- One iteration of the `_get_n_components` loop (lines 50-53); the state is
`(n_components, total_var_explained)` and `p` is `(i, explained_var[i])`. -/
def pca_select_step (n_clusters : ℕ) (cutoff : ℚ) (st : ℕ × ℚ) (p : ℕ × ℚ) : ℕ × ℚ :=
  if st.2 + p.2 < cutoff ∧ p.1 < n_clusters then (st.1 + 1, st.2 + p.2) else st

/-- `_get_n_components` (lines 43-54): the loop over `i in range(1, len)`
paired with `explained_var[i]`.  (An empty ratio list would raise an
`IndexError` at `explained_var[0]` in the source; that case is unreachable
for a trained model and mapped to `1` here.) -/
def get_n_components (explained_variance_ratio : List ℚ) (n_clusters : ℕ)
    (cutoff : ℚ) : ℕ :=
  match explained_variance_ratio with
  | [] => 1
  | ev0 :: rest =>
      (((List.range' 1 rest.length).zip rest).foldl
        (pca_select_step n_clusters cutoff) (1, ev0)).1

/-- `_collect_components` (lines 56-58): transpose of
`|components_[0:n] * explained_variance_[0:n, newaxis]|`; entry `(f, j)` is
`|components_[j, f] * explained_variance_[j]|` for `j < n_components`. -/
def collect_components (components_ : ℕ → ℕ → ℚ) (explained_variance_ : ℕ → ℚ)
    (n_components : ℕ) : ℕ → ℕ → ℚ :=
  fun f j => if j < n_components then |components_ j f * explained_variance_ j| else 0

/-- The fields of a fit `sklearn.decomposition.PCA` model used by
`get_feature_importance`. -/
structure PCAModel where
  components_ : ℕ → ℕ → ℚ
  explained_variance_ : ℕ → ℚ
  explained_variance_ratio_ : List ℚ

/-- `PCAFeatureExtractor.get_feature_importance` (lines 60-68): when
`self.n_components` is preset it is used as is; otherwise the count comes
from `_get_n_components` with the hard-coded cutoff; the result is the
`F×n_components` matrix of `_collect_components`. -/
def pca_get_feature_importance (n_components_preset : Option ℕ) (m : PCAModel)
    (n_clusters : ℕ) : ℕ → ℕ → ℚ :=
  let n := match n_components_preset with
    | some k => k
    | none => get_n_components m.explained_variance_ratio_ n_clusters pca_variance_cutoff
  collect_components m.components_ m.explained_variance_ n

/-- The claim's selection rule, as written: the smallest component count `k`
whose cumulative explained variance (sum of the first `k` ratios) reaches the
cutoff while `k` is at most the number of clusters. -/
def claimed_n_components (explained_variance_ratio : List ℚ) (n_clusters : ℕ)
    (cutoff : ℚ) : ℕ :=
  (((List.range explained_variance_ratio.length).map (· + 1)).filter
      (fun k => decide (cutoff ≤ (explained_variance_ratio.take k).sum ∧ k ≤ n_clusters))).headD
    explained_variance_ratio.length

/-- The claim's importance vector, as written: per feature, the sum over the
selected components of `|loading × explained_variance|`. -/
def claimed_importance_vector (m : PCAModel) (n_components : ℕ) : ℕ → ℚ :=
  fun f => ∑ j ∈ Finset.range n_components, |m.components_ j f * m.explained_variance_ j|

/-- Clean recursive form of the source's greedy scan: walking the ratios from
index `i` with running total `total`, count an element when adding it keeps
the total of accepted ratios strictly below the cutoff and its index is below
`n_clusters`; skipped elements do not stop the walk. -/
def greedy_select (n_clusters : ℕ) (cutoff : ℚ) : ℕ → ℚ → List ℚ → ℕ
  | _, _, [] => 0
  | i, total, e :: rest =>
      if total + e < cutoff ∧ i < n_clusters
      then 1 + greedy_select n_clusters cutoff (i + 1) (total + e) rest
      else greedy_select n_clusters cutoff (i + 1) total rest

lemma foldl_pca_select_step (n_clusters : ℕ) (cutoff : ℚ) (l : List ℚ)
    (i n : ℕ) (total : ℚ) :
    ((((List.range' i l.length).zip l).foldl (pca_select_step n_clusters cutoff) (n, total)).1)
      = n + greedy_select n_clusters cutoff i total l := by
  induction l generalizing i n total with
  | nil => simp [greedy_select]
  | cons e rest ih =>
      rw [List.length_cons, List.range'_succ, List.zip_cons_cons, List.foldl_cons]
      by_cases h : total + e < cutoff ∧ i < n_clusters
      · rw [greedy_select, if_pos h]
        have hstep : pca_select_step n_clusters cutoff (n, total) (i, e) = (n + 1, total + e) := by
          unfold pca_select_step
          exact if_pos h
        rw [hstep, ih]
        ring
      · rw [greedy_select, if_neg h]
        have hstep : pca_select_step n_clusters cutoff (n, total) (i, e) = (n, total) := by
          unfold pca_select_step
          exact if_neg h
        rw [hstep, ih]

lemma greedy_select_le (n_clusters : ℕ) (cutoff : ℚ) (l : List ℚ) (i : ℕ) (total : ℚ) :
    greedy_select n_clusters cutoff i total l ≤ n_clusters - i := by
  induction l generalizing i total with
  | nil => simp [greedy_select]
  | cons e rest ih =>
      rw [greedy_select]
      by_cases h : total + e < cutoff ∧ i < n_clusters
      · rw [if_pos h]
        have := ih (i + 1) (total + e)
        omega
      · rw [if_neg h]
        have := ih (i + 1) total
        omega

/-- **C3 counterexample.** Descending ratios `[1/2, 1/4, 1/4]`, 3 clusters,
cutoff `0.75`: the smallest count whose cumulative variance reaches the
cutoff is 2 (`1/2 + 1/4 = 3/4`), but the source's strict-inequality greedy
loop never accepts a second component and returns 1; moreover, on a model
with loadings `2` and `3` and unit variances, the code's first matrix entry
is `|2·1| = 2` and its second column is `0`, while the claim's summed vector
entry would be `2 + 3 = 5`. -/
theorem pca_n_components_counterexample :
    get_n_components [1/2, 1/4, 1/4] 3 pca_variance_cutoff = 1
    ∧ claimed_n_components [1/2, 1/4, 1/4] 3 pca_variance_cutoff = 2
    ∧ pca_get_feature_importance none
        ⟨fun j _ => if j = 0 then 2 else 3, fun _ => 1, [1/2, 1/4, 1/4]⟩ 3 0 0 = 2
    ∧ claimed_importance_vector
        ⟨fun j _ => if j = 0 then 2 else 3, fun _ => 1, [1/2, 1/4, 1/4]⟩
        (claimed_n_components [1/2, 1/4, 1/4] 3 pca_variance_cutoff) 0 = 5 := by
  have hc1 : ¬((1 : ℚ)/2 + 1/4 < pca_variance_cutoff ∧ (1 : ℕ) < 3) := by
    rw [pca_variance_cutoff]
    norm_num
  have hc2 : ¬((1 : ℚ)/2 + 1/4 < pca_variance_cutoff ∧ (2 : ℕ) < 3) := by
    rw [pca_variance_cutoff]
    norm_num
  have hn : get_n_components [1/2, 1/4, 1/4] 3 pca_variance_cutoff = 1 := by
    show ((((List.range' 1 ([1/4, 1/4] : List ℚ).length).zip ([1/4, 1/4] : List ℚ)).foldl
        (pca_select_step 3 pca_variance_cutoff) (1, 1/2)).1) = 1
    rw [foldl_pca_select_step]
    rw [greedy_select, if_neg hc1, greedy_select, if_neg hc2, greedy_select]
  have hd1 : (decide (pca_variance_cutoff ≤ (([1/2, 1/4, 1/4] : List ℚ).take 1).sum
      ∧ (1 : ℕ) ≤ 3)) = false := by
    rw [decide_eq_false_iff_not, pca_variance_cutoff]
    norm_num
  have hd2 : (decide (pca_variance_cutoff ≤ (([1/2, 1/4, 1/4] : List ℚ).take 2).sum
      ∧ (2 : ℕ) ≤ 3)) = true := by
    rw [decide_eq_true_eq, pca_variance_cutoff]
    norm_num
  have hcl : claimed_n_components [1/2, 1/4, 1/4] 3 pca_variance_cutoff = 2 := by
    unfold claimed_n_components
    rw [show ((List.range ([1/2, 1/4, 1/4] : List ℚ).length).map (· + 1)) = [1, 2, 3] from rfl]
    rw [List.filter_cons, hd1, if_neg (by simp), List.filter_cons, hd2, if_pos rfl]
    rfl
  refine ⟨hn, hcl, ?_, ?_⟩
  · show collect_components _ _ (get_n_components [1/2, 1/4, 1/4] 3 pca_variance_cutoff) 0 0 = 2
    rw [hn]
    unfold collect_components
    norm_num
  · rw [hcl]
    unfold claimed_importance_vector
    rw [Finset.sum_range_succ, Finset.sum_range_one]
    norm_num

/-- **C3 (amended).** When `n_components` is not preset,
`get_feature_importance` chooses the component count by the source's greedy
scan with the hard-coded cutoff `0.75`: starting from `n = 1` and a running
total equal to the first ratio, each later component at index `i` is counted
exactly when adding its ratio to the running total of *counted* ratios stays
strictly below the cutoff and `i < n_clusters` (a skipped component does not
stop the scan); the count always lies between 1 and `n_clusters` (when at
least one cluster exists); and the returned value is the `F×n_components`
matrix whose `j`-th column is `|loading_j × explained_variance_j|` — the
per-component columns, not their sum. -/
theorem pca_get_feature_importance_greedy (m : PCAModel) (ncl : ℕ)
    (ev0 : ℚ) (rest : List ℚ)
    (hev : m.explained_variance_ratio_ = ev0 :: rest) (hncl : 1 ≤ ncl) :
    get_n_components m.explained_variance_ratio_ ncl pca_variance_cutoff
        = 1 + greedy_select ncl pca_variance_cutoff 1 ev0 rest
    ∧ 1 ≤ get_n_components m.explained_variance_ratio_ ncl pca_variance_cutoff
    ∧ get_n_components m.explained_variance_ratio_ ncl pca_variance_cutoff ≤ ncl
    ∧ (∀ f j, pca_get_feature_importance none m ncl f j
        = if j < get_n_components m.explained_variance_ratio_ ncl pca_variance_cutoff
          then |m.components_ j f * m.explained_variance_ j| else 0) := by
  have heq : get_n_components m.explained_variance_ratio_ ncl pca_variance_cutoff
      = 1 + greedy_select ncl pca_variance_cutoff 1 ev0 rest := by
    rw [hev]
    show ((((List.range' 1 rest.length).zip rest).foldl
        (pca_select_step ncl pca_variance_cutoff) (1, ev0)).1)
      = 1 + greedy_select ncl pca_variance_cutoff 1 ev0 rest
    exact foldl_pca_select_step ncl pca_variance_cutoff rest 1 1 ev0
  refine ⟨heq, ?_, ?_, ?_⟩
  · rw [heq]
    omega
  · rw [heq]
    have := greedy_select_le ncl pca_variance_cutoff rest 1 ev0
    omega
  · intro f j
    rfl

/-- Concrete PCA model for the C3 witness. -/
def c3_model : PCAModel :=
  ⟨fun j _ => if j = 0 then 2 else 3, fun _ => 1, [1/2, 1/4, 1/4]⟩

theorem pca_get_feature_importance_greedy_witness :
    c3_model.explained_variance_ratio_ = (1/2 : ℚ) :: [1/4, 1/4]
    ∧ (1 : ℕ) ≤ 3
    ∧ get_n_components c3_model.explained_variance_ratio_ 3 pca_variance_cutoff
        = 1 + greedy_select 3 pca_variance_cutoff 1 (1/2) [1/4, 1/4]
    ∧ get_n_components c3_model.explained_variance_ratio_ 3 pca_variance_cutoff ≤ 3 := by
  have h := pca_get_feature_importance_greedy c3_model 3 (1/2) [1/4, 1/4] rfl (by norm_num)
  exact ⟨rfl, by norm_num, h.1, h.2.2.1⟩

/-!
## ELM pseudo-inverse — `modules/feature_extraction/elm_feature_extractor.py`,
`SingleLayerELMClassifier._pseudo_inverse` (lines 69-86) and `fit` (lines 47-54)

The primal path builds `inner = x.T @ x`, and, when `alpha` is set, adds
`tikonov_matrix.T @ tikonov_matrix` with `tikonov_matrix = eye * alpha` —
that is `alpha² · I`, not `alpha · I`; `np.linalg.inv(inner)` raises
`LinAlgError` exactly when `inner` is singular, in which case the dual path
builds `x @ x.T + tikonov_matrix @ tikonov_matrix.T` (again `alpha² · I`)
and returns `x.T @ inv(...)`.  `np.linalg.inv` is modelled as an `Option`,
`none` on a singular argument.  `fit` computes the hidden activations `H`
from the fixed random draws `W1, b1` (passed here as explicit parameters)
and sets `W2 = _pseudo_inverse(H) @ t`.
-/

/-- `np.linalg.inv`: the inverse `det⁻¹ • adjugate` of a nonsingular matrix,
`none` (`LinAlgError`) on a singular one. -/
def np_linalg_inv {n : ℕ} (A : Matrix (Fin n) (Fin n) ℚ) :
    Option (Matrix (Fin n) (Fin n) ℚ) :=
  if A.det = 0 then none else some ((A.det)⁻¹ • A.adjugate)

/-- The regularization term actually added by lines 73-75 / 82-84:
`(eye·α)ᵀ (eye·α) = α²·I` when `alpha` is set, nothing when it is `None`. -/
def tikhonov_term (n : ℕ) (alpha : Option ℚ) : Matrix (Fin n) (Fin n) ℚ :=
  match alpha with
  | some a => (a * a) • (1 : Matrix (Fin n) (Fin n) ℚ)
  | none => 0

/-- The primal inner matrix `x.T @ x [+ α²I]` of lines 72-75. -/
def primal_inner {N m : ℕ} (H : Matrix (Fin N) (Fin m) ℚ) (alpha : Option ℚ) :
    Matrix (Fin m) (Fin m) ℚ :=
  Hᵀ * H + tikhonov_term m alpha

/-- The dual inner matrix `x @ x.T [+ α²I]` of lines 81-84. -/
def dual_inner {N m : ℕ} (H : Matrix (Fin N) (Fin m) ℚ) (alpha : Option ℚ) :
    Matrix (Fin N) (Fin N) ℚ :=
  H * Hᵀ + tikhonov_term N alpha

/-- `SingleLayerELMClassifier._pseudo_inverse` (lines 69-86): primal form
when the primal inner matrix is invertible, dual form as the `except`
fallback; `none` when both are singular (the `LinAlgError` escapes). -/
def pseudo_inverse {N m : ℕ} (H : Matrix (Fin N) (Fin m) ℚ) (alpha : Option ℚ) :
    Option (Matrix (Fin m) (Fin N) ℚ) :=
  match np_linalg_inv (primal_inner H alpha) with
  | some inv => some (inv * Hᵀ)
  | none => (np_linalg_inv (dual_inner H alpha)).map (fun inv => Hᵀ * inv)

/-- `_g_ELM` on the relu branch (lines 61-63): `x * (x > 0)`. -/
def g_elm_relu {N m : ℕ} (A : Matrix (Fin N) (Fin m) ℚ) : Matrix (Fin N) (Fin m) ℚ :=
  Matrix.of fun i j => if 0 < A i j then A i j else 0

/-- The hidden activation `H = g(x @ W1 + b1)` of line 51, with the random
draws `W1`, `b1` as explicit inputs and relu activation. -/
def elm_hidden {N n m : ℕ} (W1 : Matrix (Fin n) (Fin m) ℚ) (b1 : Fin m → ℚ)
    (x : Matrix (Fin N) (Fin n) ℚ) : Matrix (Fin N) (Fin m) ℚ :=
  g_elm_relu (x * W1 + Matrix.of fun _ j => b1 j)

/-- Line 52: `W2 = matmul(self._pseudo_inverse(H), t)` (the second entry of
`coefs_`), `none` when the pseudo-inverse raised. -/
def elm_fit_output_weights {N n m Cc : ℕ} (W1 : Matrix (Fin n) (Fin m) ℚ)
    (b1 : Fin m → ℚ) (x : Matrix (Fin N) (Fin n) ℚ)
    (t : Matrix (Fin N) (Fin Cc) ℚ) (alpha : Option ℚ) :
    Option (Matrix (Fin m) (Fin Cc) ℚ) :=
  (pseudo_inverse (elm_hidden W1 b1 x) alpha).map (fun P => P * t)

lemma np_linalg_inv_of_det_ne_zero {n : ℕ} (A : Matrix (Fin n) (Fin n) ℚ)
    (h : A.det ≠ 0) : np_linalg_inv A = some A⁻¹ := by
  unfold np_linalg_inv
  rw [if_neg h, Matrix.inv_def, Ring.inverse_eq_inv]

lemma np_linalg_inv_of_det_eq_zero {n : ℕ} (A : Matrix (Fin n) (Fin n) ℚ)
    (h : A.det = 0) : np_linalg_inv A = none := by
  unfold np_linalg_inv
  rw [if_pos h]

/-- The `1×1` hidden-activation matrix `[[1]]` used in the C5
counterexample and witness. -/
def c5_H : Matrix (Fin 1) (Fin 1) ℚ := Matrix.of fun _ _ => 1

lemma c5_primal_inner_eq : primal_inner c5_H (some 2) = Matrix.of fun _ _ => (5 : ℚ) := by
  apply Matrix.ext
  intro i j
  fin_cases i
  fin_cases j
  simp [primal_inner, tikhonov_term, c5_H, Matrix.mul_apply, Matrix.one_apply]
  norm_num

/-- **C5 counterexample.** `H = [[1]]` (one sample, one hidden unit) and
`alpha = 2`: the primal inner matrix built by the code is `1 + 2² = 5` and
the returned pseudo-inverse is `[[1/5]]`, whereas the claim's primal Gram
form `(HᵀH + αI)⁻¹Hᵀ = (1 + 2)⁻¹ · 1` is `[[1/3]]`. -/
theorem elm_pseudo_inverse_counterexample :
    pseudo_inverse c5_H (some 2) = some (Matrix.of fun _ _ => (1/5 : ℚ))
    ∧ ((c5_Hᵀ * c5_H + (2 : ℚ) • 1)⁻¹ * c5_Hᵀ) 0 0 = 1/3
    ∧ (1/5 : ℚ) ≠ 1/3 := by
  refine ⟨?_, ?_, by norm_num⟩
  · have hdet : (primal_inner c5_H (some 2)).det ≠ 0 := by
      rw [c5_primal_inner_eq, Matrix.det_fin_one]
      norm_num
    unfold pseudo_inverse
    rw [np_linalg_inv_of_det_ne_zero _ hdet]
    show some ((primal_inner c5_H (some 2))⁻¹ * c5_Hᵀ) = some (Matrix.of fun _ _ => (1/5 : ℚ))
    congr 1
    rw [c5_primal_inner_eq, Matrix.inv_def, Ring.inverse_eq_inv,
      Matrix.det_fin_one, Matrix.adjugate_fin_one]
    apply Matrix.ext
    intro i j
    fin_cases i
    fin_cases j
    simp [c5_H, Matrix.mul_apply, Matrix.smul_apply]
  · have hA : (c5_Hᵀ * c5_H + (2 : ℚ) • 1) = Matrix.of fun (_ : Fin 1) (_ : Fin 1) => (3 : ℚ) := by
      apply Matrix.ext
      intro i j
      fin_cases i
      fin_cases j
      simp [c5_H, Matrix.mul_apply, Matrix.one_apply]
      norm_num
    rw [hA, Matrix.inv_def, Ring.inverse_eq_inv, Matrix.det_fin_one, Matrix.adjugate_fin_one]
    simp [c5_H, Matrix.mul_apply, Matrix.smul_apply]

/-- **C5 (amended).** `_pseudo_inverse` regularizes with the squared
Tikhonov matrix `α²·I` (the code adds `(eye·α)ᵀ(eye·α)`), not `α·I`: when
`HᵀH + α²I` is invertible it returns `(HᵀH + α²I)⁻¹Hᵀ` (so the result `P`
satisfies `(HᵀH + α²I)·P = Hᵀ`); when that matrix is singular it falls back
to the dual form `Hᵀ(HHᵀ + α²I)⁻¹` (so `P·(HHᵀ + α²I) = Hᵀ`), provided the
dual inner matrix is itself invertible; and the output weights computed by
`fit` are this pseudo-inverse applied to the target matrix. -/
theorem elm_pseudo_inverse_alpha_squared {N n m Cc : ℕ}
    (H : Matrix (Fin N) (Fin m) ℚ) (a : ℚ)
    (W1 : Matrix (Fin n) (Fin m) ℚ) (b1 : Fin m → ℚ)
    (x : Matrix (Fin N) (Fin n) ℚ) (t : Matrix (Fin N) (Fin Cc) ℚ) :
    ((primal_inner H (some a)).det ≠ 0 →
        pseudo_inverse H (some a) = some ((Hᵀ * H + (a * a) • 1)⁻¹ * Hᵀ)
        ∧ (Hᵀ * H + (a * a) • 1) * ((Hᵀ * H + (a * a) • 1)⁻¹ * Hᵀ) = Hᵀ)
    ∧ ((primal_inner H (some a)).det = 0 → (dual_inner H (some a)).det ≠ 0 →
        pseudo_inverse H (some a) = some (Hᵀ * (H * Hᵀ + (a * a) • 1)⁻¹)
        ∧ (Hᵀ * (H * Hᵀ + (a * a) • 1)⁻¹) * (H * Hᵀ + (a * a) • 1) = Hᵀ)
    ∧ (∀ P, pseudo_inverse (elm_hidden W1 b1 x) (some a) = some P →
        elm_fit_output_weights W1 b1 x t (some a) = some (P * t)) := by
  have hprimal : primal_inner H (some a) = Hᵀ * H + (a * a) • 1 := by
    unfold primal_inner tikhonov_term
    rfl
  have hdual : dual_inner H (some a) = H * Hᵀ + (a * a) • 1 := by
    unfold dual_inner tikhonov_term
    rfl
  refine ⟨?_, ?_, ?_⟩
  · intro hdet
    constructor
    · unfold pseudo_inverse
      rw [np_linalg_inv_of_det_ne_zero _ hdet, hprimal]
    · rw [← Matrix.mul_assoc, ← hprimal]
      rw [Matrix.mul_nonsing_inv _ (isUnit_iff_ne_zero.2 hdet), Matrix.one_mul]
  · intro hdet hdual_det
    constructor
    · unfold pseudo_inverse
      rw [np_linalg_inv_of_det_eq_zero _ hdet,
        np_linalg_inv_of_det_ne_zero _ hdual_det, hdual]
      rfl
    · rw [Matrix.mul_assoc, ← hdual]
      rw [Matrix.nonsing_inv_mul _ (isUnit_iff_ne_zero.2 hdual_det), Matrix.mul_one]
  · intro P hP
    unfold elm_fit_output_weights
    rw [hP]
    rfl

theorem elm_pseudo_inverse_alpha_squared_witness :
    ((primal_inner c5_H (some 1)).det ≠ 0)
    ∧ pseudo_inverse c5_H (some 1)
        = some ((c5_Hᵀ * c5_H + ((1 : ℚ) * 1) • 1)⁻¹ * c5_Hᵀ) := by
  have hdet : (primal_inner c5_H (some 1)).det ≠ 0 := by
    rw [Matrix.det_fin_one]
    simp [primal_inner, tikhonov_term, c5_H, Matrix.mul_apply, Matrix.one_apply]
  have h := elm_pseudo_inverse_alpha_squared c5_H 1
    (Matrix.of fun (_ : Fin 1) (_ : Fin 1) => (0 : ℚ)) (fun _ => 0)
    (Matrix.of fun (_ : Fin 1) (_ : Fin 1) => (0 : ℚ))
    (Matrix.of fun (_ : Fin 1) (_ : Fin 1) => (0 : ℚ))
  exact ⟨hdet, (h.1 hdet).1⟩

/-!
## Largest-gap separation score — `modules/postprocessing.py`,
`PostProcessor._compute_area_under_ROC` (lines 262-296)

Per cluster `i` the source sorts the column
`importance_per_residue_and_cluster[:, i]` in descending order
(`np.argsort(-col)`), takes consecutive differences of the sorted values,
finds the first index of the maximum difference (`difference.index(max)`),
splits the ranking there into `POSITIVE` (up to and including the split
index) and `NEGATIVE` (the rest), counts `TP/FP/TN/FN` with Python set
intersections against `predefined_relevant_residues[i]` and the decoy list
`range(nresidues)` minus the actives, accumulates
`(TP-FP)/(TP+FP)` and `(TN-FN)/(TN+FN)`, and finally divides both
accumulators by the number of clusters.  Ties in `np.argsort` are resolved
arbitrarily by numpy's quicksort; the embedding uses a stable descending
sort, and the claim is settled under a distinct-values hypothesis, where
every correct descending sort agrees.
-/

/-- `np.argsort(-col)`: residue indices in descending order of their
importance in cluster `i` (line 273). -/
def sorted_resids {R C : ℕ} (imp : Fin R → Fin C → ℚ) (i : Fin C) : List (Fin R) :=
  (List.finRange R).mergeSort (fun a b => decide (imp b i ≤ imp a i))

/-- `-np.sort(-col)`: the descending sorted importance values (line 272). -/
def sorted_vals {R C : ℕ} (imp : Fin R → Fin C → ℚ) (i : Fin C) : List ℚ :=
  (sorted_resids imp i).map (fun r => imp r i)

/-- The consecutive differences of the sorted values (lines 275-278). -/
def roc_differences {R C : ℕ} (imp : Fin R → Fin C → ℚ) (i : Fin C) : List ℚ :=
  ((sorted_vals imp i).zip (sorted_vals imp i).tail).map (fun p => p.1 - p.2)

/-- `difference.index(max(difference))` (lines 279-280): the first index of
the maximum consecutive difference. -/
def difference_max_index {R C : ℕ} (imp : Fin R → Fin C → ℚ) (i : Fin C) : ℕ :=
  List.indexOf (((roc_differences imp i).max?).getD 0) (roc_differences imp i)

/-- `POSITIVE` (line 282): the ranking up to and including the split index. -/
def roc_positive {R C : ℕ} (imp : Fin R → Fin C → ℚ) (i : Fin C) : List (Fin R) :=
  (sorted_resids imp i).take (difference_max_index imp i + 1)

/-- `NEGATIVE` (line 283): the rest of the ranking. -/
def roc_negative {R C : ℕ} (imp : Fin R → Fin C → ℚ) (i : Fin C) : List (Fin R) :=
  (sorted_resids imp i).drop (difference_max_index imp i + 1)

/-- `ind_decoys` (line 289): `range(nresidues)` minus the actives. -/
def roc_decoys (R : ℕ) (relevant_res : List ℕ) : List ℕ :=
  (List.range R).filter (fun j => decide (j ∉ relevant_res))

/-- `TP = len(set(POSITIVE) & set(ind_actives))` (line 286). -/
def roc_tp {R C : ℕ} (imp : Fin R → Fin C → ℚ) (relevant : Fin C → List ℕ)
    (i : Fin C) : ℕ :=
  (((roc_positive imp i).map Fin.val).toFinset ∩ (relevant i).toFinset).card

/-- `TN = len(set(NEGATIVE) & set(ind_decoys))` (line 290). -/
def roc_tn {R C : ℕ} (imp : Fin R → Fin C → ℚ) (relevant : Fin C → List ℕ)
    (i : Fin C) : ℕ :=
  (((roc_negative imp i).map Fin.val).toFinset ∩ (roc_decoys R (relevant i)).toFinset).card

/-- One cluster's `(TP - FP) / (TP + FP)` (lines 287, 293), with
`FP = len(POSITIVE) - TP`. -/
def roc_pos_ratio {R C : ℕ} (imp : Fin R → Fin C → ℚ) (relevant : Fin C → List ℕ)
    (i : Fin C) : ℚ :=
  ((roc_tp imp relevant i : ℚ) - (((roc_positive imp i).length : ℚ) - (roc_tp imp relevant i : ℚ)))
    / ((roc_tp imp relevant i : ℚ) + (((roc_positive imp i).length : ℚ) - (roc_tp imp relevant i : ℚ)))

/-- One cluster's `(TN - FN) / (TN + FN)` (lines 291, 294), with
`FN = len(NEGATIVE) - TN`. -/
def roc_neg_ratio {R C : ℕ} (imp : Fin R → Fin C → ℚ) (relevant : Fin C → List ℕ)
    (i : Fin C) : ℚ :=
  ((roc_tn imp relevant i : ℚ) - (((roc_negative imp i).length : ℚ) - (roc_tn imp relevant i : ℚ)))
    / ((roc_tn imp relevant i : ℚ) + (((roc_negative imp i).length : ℚ) - (roc_tn imp relevant i : ℚ)))

/-- `_compute_area_under_ROC` (lines 262-296): the two accumulators summed
over clusters, divided by the number of clusters; `self.auc` is the pair. -/
def compute_area_under_ROC {R C : ℕ} (imp : Fin R → Fin C → ℚ)
    (relevant : Fin C → List ℕ) : ℚ × ℚ :=
  let acc := (List.finRange C).foldl
    (fun acc i => (acc.1 + roc_pos_ratio imp relevant i, acc.2 + roc_neg_ratio imp relevant i))
    (0, 0)
  (acc.1 / (C : ℚ), acc.2 / (C : ℚ))

/-- The sorted importance value at the split index: residues "ranked at or
above" that index are exactly those whose importance reaches this value
(under distinct column values). -/
def roc_threshold {R C : ℕ} (imp : Fin R → Fin C → ℚ) (i : Fin C) : ℚ :=
  (sorted_vals imp i).getD (difference_max_index imp i) 0

/-- The claim's positive set: residues whose importance is at least the
value at the maximum-gap split index of the descending-sorted sequence. -/
def spec_positive_set {R C : ℕ} (imp : Fin R → Fin C → ℚ) (i : Fin C) :
    Finset (Fin R) :=
  Finset.univ.filter (fun r => roc_threshold imp i ≤ imp r i)

/-- The predefined relevant residues of one cluster, as a set of residue
indices. -/
def spec_relevant_set (R : ℕ) (relevant_res : List ℕ) : Finset (Fin R) :=
  Finset.univ.filter (fun r => (r : ℕ) ∈ relevant_res)

lemma sorted_resids_perm {R C : ℕ} (imp : Fin R → Fin C → ℚ) (i : Fin C) :
    (sorted_resids imp i).Perm (List.finRange R) :=
  List.mergeSort_perm _ _

lemma sorted_resids_nodup {R C : ℕ} (imp : Fin R → Fin C → ℚ) (i : Fin C) :
    (sorted_resids imp i).Nodup :=
  (sorted_resids_perm imp i).nodup_iff.mpr (List.nodup_finRange R)

lemma sorted_resids_length {R C : ℕ} (imp : Fin R → Fin C → ℚ) (i : Fin C) :
    (sorted_resids imp i).length = R :=
  (sorted_resids_perm imp i).length_eq.trans (List.length_finRange R)

lemma sorted_resids_mem {R C : ℕ} (imp : Fin R → Fin C → ℚ) (i : Fin C) (r : Fin R) :
    r ∈ sorted_resids imp i :=
  (sorted_resids_perm imp i).mem_iff.mpr (List.mem_finRange r)

lemma sorted_resids_sorted_desc {R C : ℕ} (imp : Fin R → Fin C → ℚ) (i : Fin C) :
    List.Sorted (fun a b => imp b i ≤ imp a i) (sorted_resids imp i) := by
  have h := @List.sorted_mergeSort (Fin R) (fun a b : Fin R => decide (imp b i ≤ imp a i))
    (fun a b c hab hbc => decide_eq_true (le_trans (of_decide_eq_true hbc) (of_decide_eq_true hab)))
    (fun a b => by
      rcases le_total (imp b i) (imp a i) with h' | h'
      · simp [decide_eq_true h']
      · simp [decide_eq_true h'])
    (List.finRange R)
  exact h.imp (fun hab => of_decide_eq_true hab)

lemma sorted_vals_length {R C : ℕ} (imp : Fin R → Fin C → ℚ) (i : Fin C) :
    (sorted_vals imp i).length = R := by
  unfold sorted_vals
  rw [List.length_map, sorted_resids_length]

lemma roc_differences_length {R C : ℕ} (imp : Fin R → Fin C → ℚ) (i : Fin C) :
    (roc_differences imp i).length = R - 1 := by
  unfold roc_differences
  rw [List.length_map, List.length_zip, List.length_tail, sorted_vals_length]
  omega

lemma difference_max_index_lt {R C : ℕ} (imp : Fin R → Fin C → ℚ) (i : Fin C)
    (hR : 2 ≤ R) :
    difference_max_index imp i < R - 1 := by
  have hlen := roc_differences_length imp i
  have hne : roc_differences imp i ≠ [] := by
    intro h
    rw [h] at hlen
    simp at hlen
    omega
  obtain ⟨m, hm⟩ : ∃ m, (roc_differences imp i).max? = some m := by
    cases hmax : (roc_differences imp i).max? with
    | none => exact absurd (List.max?_eq_none_iff.mp hmax) hne
    | some m => exact ⟨m, rfl⟩
  have hmem : m ∈ roc_differences imp i := List.max?_mem (fun a b => max_choice a b) hm
  have hlt : difference_max_index imp i < (roc_differences imp i).length := by
    unfold difference_max_index
    rw [hm, Option.getD_some]
    exact List.indexOf_lt_length.2 hmem
  rw [hlen] at hlt
  exact hlt

lemma difference_max_index_lt_sorted_length {R C : ℕ} (imp : Fin R → Fin C → ℚ)
    (i : Fin C) (hR : 2 ≤ R) :
    difference_max_index imp i < (sorted_resids imp i).length := by
  rw [sorted_resids_length]
  have := difference_max_index_lt imp i hR
  omega

lemma roc_threshold_eq_get {R C : ℕ} (imp : Fin R → Fin C → ℚ) (i : Fin C)
    (hR : 2 ≤ R) :
    roc_threshold imp i
      = imp ((sorted_resids imp i).get
          ⟨difference_max_index imp i, difference_max_index_lt_sorted_length imp i hR⟩) i := by
  have hk : difference_max_index imp i < (sorted_vals imp i).length := by
    rw [sorted_vals_length]
    have := difference_max_index_lt imp i hR
    omega
  unfold roc_threshold
  rw [List.getD_eq_getElem _ _ hk]
  unfold sorted_vals
  rw [List.getElem_map]
  rfl

lemma roc_positive_length {R C : ℕ} (imp : Fin R → Fin C → ℚ) (i : Fin C)
    (hR : 2 ≤ R) :
    (roc_positive imp i).length = difference_max_index imp i + 1 := by
  unfold roc_positive
  rw [List.length_take]
  apply Nat.min_eq_left
  rw [sorted_resids_length]
  have := difference_max_index_lt imp i hR
  omega

lemma roc_negative_length {R C : ℕ} (imp : Fin R → Fin C → ℚ) (i : Fin C) :
    (roc_negative imp i).length
      = (sorted_resids imp i).length - (difference_max_index imp i + 1) := by
  unfold roc_negative
  exact List.length_drop _ _

lemma roc_positive_length_le {R C : ℕ} (imp : Fin R → Fin C → ℚ) (i : Fin C) :
    (roc_positive imp i).length ≤ difference_max_index imp i + 1 := by
  unfold roc_positive
  rw [List.length_take]
  exact Nat.min_le_left _ _

lemma roc_positive_length_le_sorted {R C : ℕ} (imp : Fin R → Fin C → ℚ) (i : Fin C) :
    (roc_positive imp i).length ≤ (sorted_resids imp i).length := by
  unfold roc_positive
  rw [List.length_take]
  exact Nat.min_le_right _ _

lemma mem_roc_positive_iff {R C : ℕ} (imp : Fin R → Fin C → ℚ) (i : Fin C)
    (hR : 2 ≤ R) (hinj : Function.Injective fun r : Fin R => imp r i) (r : Fin R) :
    r ∈ roc_positive imp i ↔ roc_threshold imp i ≤ imp r i := by
  have hkt := difference_max_index_lt_sorted_length imp i hR
  have hth := roc_threshold_eq_get imp i hR
  constructor
  · intro hmem
    obtain ⟨q, hq⟩ := List.mem_iff_get.mp hmem
    have hqlen : (q : ℕ) < (sorted_resids imp i).length :=
      lt_of_lt_of_le q.2 (roc_positive_length_le_sorted imp i)
    have hr_eq : (sorted_resids imp i).get ⟨q, hqlen⟩ = r := by
      rw [← hq]
      unfold roc_positive
      simp only [List.get_eq_getElem]
      rw [List.getElem_take]
    have hqk : (q : ℕ) ≤ difference_max_index imp i := by
      have h1 := q.2
      have h2 := roc_positive_length_le imp i
      omega
    rw [hth]
    rcases lt_or_eq_of_le hqk with hlt | heq
    · have h3 := (sorted_resids_sorted_desc imp i).rel_get_of_lt
        (a := ⟨q, hqlen⟩) (b := ⟨difference_max_index imp i, hkt⟩) (by exact hlt)
      rw [hr_eq] at h3
      exact h3
    · rw [← hr_eq]
      have h4 : (⟨(q : ℕ), hqlen⟩ : Fin (sorted_resids imp i).length)
          = ⟨difference_max_index imp i, hkt⟩ := Fin.ext heq
      rw [h4]
  · intro hle
    by_contra hnot
    have hrmem : r ∈ sorted_resids imp i := sorted_resids_mem imp i r
    have hsplit : r ∈ roc_positive imp i ++ roc_negative imp i := by
      unfold roc_positive roc_negative
      rw [List.take_append_drop]
      exact hrmem
    have hrneg : r ∈ roc_negative imp i := by
      rcases List.mem_append.mp hsplit with h | h
      · exact absurd h hnot
      · exact h
    obtain ⟨q, hq⟩ := List.mem_iff_get.mp hrneg
    have hlen : difference_max_index imp i + 1 + (q : ℕ) < (sorted_resids imp i).length := by
      have h1 := q.2
      have h2 := roc_negative_length imp i
      omega
    have hr_eq : (sorted_resids imp i).get ⟨difference_max_index imp i + 1 + q, hlen⟩ = r := by
      rw [← hq]
      unfold roc_negative
      simp only [List.get_eq_getElem]
      rw [List.getElem_drop]
    have hrel : imp ((sorted_resids imp i).get ⟨difference_max_index imp i + 1 + q, hlen⟩) i
        ≤ imp ((sorted_resids imp i).get ⟨difference_max_index imp i, hkt⟩) i :=
      (sorted_resids_sorted_desc imp i).rel_get_of_lt
        (a := ⟨difference_max_index imp i, hkt⟩)
        (b := ⟨difference_max_index imp i + 1 + q, hlen⟩)
        (by simp only [Fin.mk_lt_mk]; omega)
    rw [hr_eq] at hrel
    rw [hth] at hle
    have heq : imp r i = imp ((sorted_resids imp i).get
        ⟨difference_max_index imp i, hkt⟩) i := le_antisymm hrel hle
    have hr_is : r = (sorted_resids imp i).get ⟨difference_max_index imp i, hkt⟩ :=
      hinj heq
    apply hnot
    rw [hr_is]
    unfold roc_positive
    apply List.mem_iff_get.mpr
    refine ⟨⟨difference_max_index imp i, ?_⟩, ?_⟩
    · rw [List.length_take]
      exact lt_min_iff.mpr ⟨by omega, hkt⟩
    · simp only [List.get_eq_getElem]
      rw [List.getElem_take]

lemma spec_positive_set_eq {R C : ℕ} (imp : Fin R → Fin C → ℚ) (i : Fin C)
    (hR : 2 ≤ R) (hinj : Function.Injective fun r : Fin R => imp r i) :
    spec_positive_set imp i = (roc_positive imp i).toFinset := by
  ext r
  rw [List.mem_toFinset, mem_roc_positive_iff imp i hR hinj r]
  simp [spec_positive_set]

lemma mem_roc_negative_iff {R C : ℕ} (imp : Fin R → Fin C → ℚ) (i : Fin C) (r : Fin R) :
    r ∈ roc_negative imp i ↔ r ∉ roc_positive imp i := by
  have hnd : (roc_positive imp i ++ roc_negative imp i).Nodup := by
    unfold roc_positive roc_negative
    rw [List.take_append_drop]
    exact sorted_resids_nodup imp i
  have hdisj := (List.nodup_append.mp hnd).2.2
  constructor
  · intro hneg hpos
    exact hdisj hpos hneg
  · intro hnpos
    have hrmem : r ∈ sorted_resids imp i := sorted_resids_mem imp i r
    have hsplit : r ∈ roc_positive imp i ++ roc_negative imp i := by
      unfold roc_positive roc_negative
      rw [List.take_append_drop]
      exact hrmem
    rcases List.mem_append.mp hsplit with h | h
    · exact absurd h hnpos
    · exact h

lemma spec_negative_set_eq {R C : ℕ} (imp : Fin R → Fin C → ℚ) (i : Fin C)
    (hR : 2 ≤ R) (hinj : Function.Injective fun r : Fin R => imp r i) :
    (spec_positive_set imp i)ᶜ = (roc_negative imp i).toFinset := by
  ext r
  rw [Finset.mem_compl, List.mem_toFinset, mem_roc_negative_iff imp i r,
    spec_positive_set_eq imp i hR hinj, List.mem_toFinset]

lemma map_val_toFinset {R : ℕ} (l : List (Fin R)) :
    (l.map Fin.val).toFinset = l.toFinset.image Fin.val := by
  ext n
  simp [List.mem_toFinset, List.mem_map, Finset.mem_image]

lemma roc_tp_eq {R C : ℕ} (imp : Fin R → Fin C → ℚ) (relevant : Fin C → List ℕ)
    (i : Fin C) (hR : 2 ≤ R) (hinj : Function.Injective fun r : Fin R => imp r i) :
    roc_tp imp relevant i
      = (spec_positive_set imp i ∩ spec_relevant_set R (relevant i)).card := by
  unfold roc_tp
  rw [map_val_toFinset, ← spec_positive_set_eq imp i hR hinj,
    ← Finset.card_image_of_injective
      (spec_positive_set imp i ∩ spec_relevant_set R (relevant i)) Fin.val_injective]
  congr 1
  ext n
  simp only [Finset.mem_inter, Finset.mem_image, List.mem_toFinset,
    spec_relevant_set, Finset.mem_filter, Finset.mem_univ, true_and]
  constructor
  · rintro ⟨⟨r, hrpos, rfl⟩, hrel⟩
    exact ⟨r, ⟨hrpos, hrel⟩, rfl⟩
  · rintro ⟨r, ⟨hrpos, hrel⟩, rfl⟩
    exact ⟨⟨r, hrpos, rfl⟩, hrel⟩

lemma roc_tn_eq {R C : ℕ} (imp : Fin R → Fin C → ℚ) (relevant : Fin C → List ℕ)
    (i : Fin C) (hR : 2 ≤ R) (hinj : Function.Injective fun r : Fin R => imp r i) :
    roc_tn imp relevant i
      = ((spec_positive_set imp i)ᶜ ∩ (spec_relevant_set R (relevant i))ᶜ).card := by
  unfold roc_tn
  rw [map_val_toFinset, ← spec_negative_set_eq imp i hR hinj,
    ← Finset.card_image_of_injective
      ((spec_positive_set imp i)ᶜ ∩ (spec_relevant_set R (relevant i))ᶜ) Fin.val_injective]
  congr 1
  ext n
  simp only [Finset.mem_inter, Finset.mem_image, List.mem_toFinset, roc_decoys,
    List.mem_filter, List.mem_range, decide_eq_true_eq, Finset.mem_compl,
    spec_relevant_set, Finset.mem_filter, Finset.mem_univ, true_and]
  constructor
  · rintro ⟨⟨r, hrneg, rfl⟩, _, hnrel⟩
    exact ⟨r, ⟨hrneg, hnrel⟩, rfl⟩
  · rintro ⟨r, ⟨hrneg, hnrel⟩, rfl⟩
    exact ⟨⟨r, hrneg, rfl⟩, r.2, hnrel⟩

lemma card_spec_positive {R C : ℕ} (imp : Fin R → Fin C → ℚ) (i : Fin C)
    (hR : 2 ≤ R) (hinj : Function.Injective fun r : Fin R => imp r i) :
    (spec_positive_set imp i).card = (roc_positive imp i).length := by
  rw [spec_positive_set_eq imp i hR hinj]
  apply List.toFinset_card_of_nodup
  exact (sorted_resids_nodup imp i).sublist (List.take_sublist _ _)

lemma card_spec_negative {R C : ℕ} (imp : Fin R → Fin C → ℚ) (i : Fin C)
    (hR : 2 ≤ R) (hinj : Function.Injective fun r : Fin R => imp r i) :
    ((spec_positive_set imp i)ᶜ).card = (roc_negative imp i).length := by
  rw [spec_negative_set_eq imp i hR hinj]
  apply List.toFinset_card_of_nodup
  exact (sorted_resids_nodup imp i).sublist (List.drop_sublist _ _)

lemma roc_pos_ratio_eq {R C : ℕ} (imp : Fin R → Fin C → ℚ) (relevant : Fin C → List ℕ)
    (i : Fin C) (hR : 2 ≤ R) (hinj : Function.Injective fun r : Fin R => imp r i) :
    roc_pos_ratio imp relevant i
      = (((spec_positive_set imp i ∩ spec_relevant_set R (relevant i)).card : ℚ)
          - ((spec_positive_set imp i \ spec_relevant_set R (relevant i)).card : ℚ))
        / (((spec_positive_set imp i ∩ spec_relevant_set R (relevant i)).card : ℚ)
          + ((spec_positive_set imp i \ spec_relevant_set R (relevant i)).card : ℚ)) := by
  have hsum := Finset.card_inter_add_card_sdiff (spec_positive_set imp i)
    (spec_relevant_set R (relevant i))
  have hlen := card_spec_positive imp i hR hinj
  unfold roc_pos_ratio
  rw [roc_tp_eq imp relevant i hR hinj]
  have hlen' : ((roc_positive imp i).length : ℚ)
      = ((spec_positive_set imp i ∩ spec_relevant_set R (relevant i)).card : ℚ)
        + ((spec_positive_set imp i \ spec_relevant_set R (relevant i)).card : ℚ) := by
    rw [← hlen, ← hsum]
    push_cast
    ring
  rw [hlen']
  congr 1 <;> ring

lemma roc_neg_ratio_eq {R C : ℕ} (imp : Fin R → Fin C → ℚ) (relevant : Fin C → List ℕ)
    (i : Fin C) (hR : 2 ≤ R) (hinj : Function.Injective fun r : Fin R => imp r i) :
    roc_neg_ratio imp relevant i
      = ((((spec_positive_set imp i)ᶜ ∩ (spec_relevant_set R (relevant i))ᶜ).card : ℚ)
          - (((spec_positive_set imp i)ᶜ ∩ spec_relevant_set R (relevant i)).card : ℚ))
        / ((((spec_positive_set imp i)ᶜ ∩ (spec_relevant_set R (relevant i))ᶜ).card : ℚ)
          + (((spec_positive_set imp i)ᶜ ∩ spec_relevant_set R (relevant i)).card : ℚ)) := by
  have hsdiff : (spec_positive_set imp i)ᶜ \ spec_relevant_set R (relevant i)
      = (spec_positive_set imp i)ᶜ ∩ (spec_relevant_set R (relevant i))ᶜ := by
    ext r
    simp [Finset.mem_sdiff, Finset.mem_inter, Finset.mem_compl]
  have hsum := Finset.card_inter_add_card_sdiff ((spec_positive_set imp i)ᶜ)
    (spec_relevant_set R (relevant i))
  rw [hsdiff] at hsum
  have hlen := card_spec_negative imp i hR hinj
  unfold roc_neg_ratio
  rw [roc_tn_eq imp relevant i hR hinj]
  have hlen' : ((roc_negative imp i).length : ℚ)
      = (((spec_positive_set imp i)ᶜ ∩ (spec_relevant_set R (relevant i))ᶜ).card : ℚ)
        + (((spec_positive_set imp i)ᶜ ∩ spec_relevant_set R (relevant i)).card : ℚ) := by
    rw [← hlen, ← hsum]
    push_cast
    ring
  rw [hlen']
  congr 1 <;> ring

lemma foldl_pair_sum {C : ℕ} (f g : Fin C → ℚ) (l : List (Fin C)) (a b : ℚ) :
    l.foldl (fun acc i => (acc.1 + f i, acc.2 + g i)) (a, b)
      = (a + (l.map f).sum, b + (l.map g).sum) := by
  induction l generalizing a b with
  | nil => simp
  | cons x t ih =>
      rw [List.foldl_cons, ih, List.map_cons, List.map_cons, List.sum_cons, List.sum_cons]
      refine Prod.ext ?_ ?_ <;> simp <;> ring

/-- **C8.** For a supervised post-processor with predefined relevant
residues and at least two residues, under distinct per-cluster importance
values: for each cluster the positive set is exactly the set of residues
whose importance reaches the sorted value at the index of the maximum
consecutive difference of the descending-sorted importance sequence (the
residues ranked at or above the largest gap), the negative set is its
complement, and `self.auc` is the pair of cluster averages of
`(TP-FP)/(TP+FP)` and `(TN-FN)/(TN+FN)` measured against the predefined
relevant residues. -/
theorem compute_area_under_ROC_gap_split {R C : ℕ} (imp : Fin R → Fin C → ℚ)
    (relevant : Fin C → List ℕ) (hR : 2 ≤ R)
    (hinj : ∀ i : Fin C, Function.Injective fun r : Fin R => imp r i) :
    compute_area_under_ROC imp relevant
      = ((∑ i : Fin C,
            (((spec_positive_set imp i ∩ spec_relevant_set R (relevant i)).card : ℚ)
              - ((spec_positive_set imp i \ spec_relevant_set R (relevant i)).card : ℚ))
            / (((spec_positive_set imp i ∩ spec_relevant_set R (relevant i)).card : ℚ)
              + ((spec_positive_set imp i \ spec_relevant_set R (relevant i)).card : ℚ)))
          / (C : ℚ),
         (∑ i : Fin C,
            ((((spec_positive_set imp i)ᶜ ∩ (spec_relevant_set R (relevant i))ᶜ).card : ℚ)
              - (((spec_positive_set imp i)ᶜ ∩ spec_relevant_set R (relevant i)).card : ℚ))
            / ((((spec_positive_set imp i)ᶜ ∩ (spec_relevant_set R (relevant i))ᶜ).card : ℚ)
              + (((spec_positive_set imp i)ᶜ ∩ spec_relevant_set R (relevant i)).card : ℚ)))
          / (C : ℚ)) := by
  unfold compute_area_under_ROC
  rw [foldl_pair_sum]
  simp only [zero_add]
  refine Prod.ext ?_ ?_
  · show ((List.finRange C).map (roc_pos_ratio imp relevant)).sum / (C : ℚ) = _
    congr 1
    rw [Fin.sum_univ_def]
    congr 1
    exact List.map_congr_left (fun i _ => roc_pos_ratio_eq imp relevant i hR (hinj i))
  · show ((List.finRange C).map (roc_neg_ratio imp relevant)).sum / (C : ℚ) = _
    congr 1
    rw [Fin.sum_univ_def]
    congr 1
    exact List.map_congr_left (fun i _ => roc_neg_ratio_eq imp relevant i hR (hinj i))

/-- Concrete two-residue, one-cluster fixture for the C8 witness: residue 0
has importance 3, residue 1 has importance 1, and residue 0 is the
predefined relevant residue. -/
def c8_imp : Fin 2 → Fin 1 → ℚ := fun r _ => if r = 0 then 3 else 1

/-- The predefined relevant residues of the C8 witness fixture. -/
def c8_relevant : Fin 1 → List ℕ := fun _ => [0]

theorem compute_area_under_ROC_gap_split_witness :
    (2 ≤ 2)
    ∧ (∀ i : Fin 1, Function.Injective fun r : Fin 2 => c8_imp r i)
    ∧ compute_area_under_ROC c8_imp c8_relevant
      = ((∑ i : Fin 1,
            (((spec_positive_set c8_imp i ∩ spec_relevant_set 2 (c8_relevant i)).card : ℚ)
              - ((spec_positive_set c8_imp i \ spec_relevant_set 2 (c8_relevant i)).card : ℚ))
            / (((spec_positive_set c8_imp i ∩ spec_relevant_set 2 (c8_relevant i)).card : ℚ)
              + ((spec_positive_set c8_imp i \ spec_relevant_set 2 (c8_relevant i)).card : ℚ)))
          / ((1 : ℕ) : ℚ),
         (∑ i : Fin 1,
            ((((spec_positive_set c8_imp i)ᶜ ∩ (spec_relevant_set 2 (c8_relevant i))ᶜ).card : ℚ)
              - (((spec_positive_set c8_imp i)ᶜ ∩ spec_relevant_set 2 (c8_relevant i)).card : ℚ))
            / ((((spec_positive_set c8_imp i)ᶜ ∩ (spec_relevant_set 2 (c8_relevant i))ᶜ).card : ℚ)
              + (((spec_positive_set c8_imp i)ᶜ ∩ spec_relevant_set 2 (c8_relevant i)).card : ℚ)))
          / ((1 : ℕ) : ℚ)) := by
  have hinj : ∀ i : Fin 1, Function.Injective fun r : Fin 2 => c8_imp r i := by
    intro i r s h
    fin_cases r <;> fin_cases s <;>
      first
        | rfl
        | (exfalso; norm_num [c8_imp] at h)
  exact ⟨le_refl 2, hinj, compute_area_under_ROC_gap_split c8_imp c8_relevant (le_refl 2) hinj⟩

/-!
## PostProcessor state machine — `modules/postprocessing.py`,
`average` (lines 95-107) and `evaluate_performance` (lines 109-122)

The object state after `__init__` is modelled as a record: the fields fixed
at construction (`feature_importances`, `std_feature_importances`,
`feature_to_resids`, `supervised`, `rescale_results`,
`predefined_relevant_residues` and the dimensions) and the fields the two
methods (re)compute.  Matrices are `ℕ`-indexed functions.  `np.sqrt` on a
scalar is abstracted as an arbitrary function `sqrtQ : ℚ → ℚ` (its values
are irrelevant to the idempotence claim).  `utils.rescale_feature_importance`
is not under `src/` and is modelled from the spec below.
`_compute_projection_classification_entropy` builds a fresh `DataProjector`
from the immutable extractor inputs and writes no field that the claim's
outputs read, so it is not modelled.
-/

/-- `np.mean(M, axis=1)` over `C` columns. -/
def np_mean_axis1 (C : ℕ) (M : ℕ → ℕ → ℚ) : ℕ → ℚ :=
  fun r => (∑ c ∈ Finset.range C, M r c) / (C : ℚ)

/-- `np.mean(v)` over `R` entries. -/
def np_mean_vec (R : ℕ) (v : ℕ → ℚ) : ℚ :=
  (∑ r ∈ Finset.range R, v r) / (R : ℚ)

/-- Modelled from the spec: `utils.rescale_feature_importance` (module
`utils.py`, absent from the sources) — "min-max per cluster, with a floor
epsilon if the range is ~0" (§4.4), "a near-zero rescale range substitutes a
unit scale" (§7).  Each column is shifted by its minimum and divided by its
range (or by 1 when the range is zero); the std array is divided by the same
per-column scale.  Only determinism and purity of this function matter for
the idempotence claim. -/
def rescale_feature_importance (R : ℕ) (fi std : ℕ → ℕ → ℚ) :
    (ℕ → ℕ → ℚ) × (ℕ → ℕ → ℚ) :=
  let colMin := fun c => (((List.range R).map (fun r => fi r c)).min?).getD 0
  let colMax := fun c => (((List.range R).map (fun r => fi r c)).max?).getD 0
  let scale := fun c => if colMax c - colMin c = 0 then 1 else colMax c - colMin c
  (fun r c => (fi r c - colMin c) / scale c, fun r c => std r c / scale c)

/-- `mapped_to_resids` lifted to `ℕ`-indexed matrices (columns beyond the
cluster count are zero, mirroring the `(nresidues, C)` array shape). -/
def mapped_to_resids_nat (F C : ℕ) (ftr : ℕ → ℕ × ℕ) (rel : ℕ → ℕ → ℚ) :
    ℕ → ℕ → ℚ :=
  fun r c =>
    if hc : c < C then
      mapped_to_resids (F := F) (fun f => ftr f) (fun f c' => rel f c') r ⟨c, hc⟩
    else 0

/-- `compute_area_under_ROC` lifted to `ℕ`-indexed matrices. -/
def compute_area_under_ROC_nat (R C : ℕ) (imp : ℕ → ℕ → ℚ)
    (relevant : ℕ → List ℕ) : ℚ × ℚ :=
  compute_area_under_ROC (R := R) (C := C)
    (fun r c => imp r c) (fun c => relevant c)

/-- The `PostProcessor` object state after `__init__`. -/
structure PPState where
  nfeatures : ℕ
  nclusters : ℕ
  feature_importances : ℕ → ℕ → ℚ
  std_feature_importances : ℕ → ℕ → ℚ
  feature_to_resids : ℕ → ℕ × ℕ
  supervised : Bool
  rescale_results : Bool
  predefined_relevant_residues : Option (ℕ → List ℕ)
  importance_mapped : ℕ → ℕ → ℚ
  std_importance_mapped : ℕ → ℕ → ℚ
  nresidues : ℕ
  importance_per_residue : ℕ → ℚ
  std_importance_per_residue : ℕ → ℚ
  importance_per_residue_and_cluster : ℕ → ℕ → ℚ
  std_importance_per_residue_and_cluster : ℕ → ℕ → ℚ
  average_std : ℚ
  auc : Option (ℚ × ℚ)

/-- `_map_feature_to_resids` (lines 156-179) as a state transformer: it
recomputes the mapped arrays and `nresidues` from the construction-fixed
fields, overwriting whatever was there. -/
def map_feature_to_resids_state (sqrtQ : ℚ → ℚ) (s : PPState) : PPState :=
  { s with
    importance_mapped :=
      mapped_to_resids_nat s.nfeatures s.nclusters s.feature_to_resids s.feature_importances,
    std_importance_mapped :=
      fun r c => sqrtQ (mapped_to_resids_nat s.nfeatures s.nclusters s.feature_to_resids
        (fun f c' => (s.std_feature_importances f c') ^ 2) r c),
    nresidues := (index_to_resid (F := s.nfeatures) (fun f => s.feature_to_resids f)).length }

/-- `_compute_importance_per_residue` (lines 181-196). -/
def compute_importance_per_residue_state (sqrtQ : ℚ → ℚ) (s : PPState) : PPState :=
  let ipr := np_mean_axis1 s.nclusters s.importance_mapped
  let spr := fun r =>
    sqrtQ (np_mean_axis1 s.nclusters (fun r' c => (s.std_importance_mapped r' c) ^ 2) r)
  if s.rescale_results then
    let p := rescale_feature_importance s.nresidues (fun r _ => ipr r) (fun r _ => spr r)
    { s with importance_per_residue := fun r => p.1 r 0,
             std_importance_per_residue := fun r => p.2 r 0 }
  else
    { s with importance_per_residue := ipr, std_importance_per_residue := spr }

/-- `_compute_importance_per_residue_and_cluster` (lines 198-205): when
rescaling, the mapped arrays themselves are overwritten with the rescaled
versions before being published as the per-residue-and-cluster outputs. -/
def compute_importance_per_residue_and_cluster_state (s : PPState) : PPState :=
  let p := if s.rescale_results
    then rescale_feature_importance s.nresidues s.importance_mapped s.std_importance_mapped
    else (s.importance_mapped, s.std_importance_mapped)
  { s with importance_mapped := p.1,
           std_importance_mapped := p.2,
           importance_per_residue_and_cluster := p.1,
           std_importance_per_residue_and_cluster := p.2 }

/-- `PostProcessor.average` (lines 95-107). -/
def pp_average (sqrtQ : ℚ → ℚ) (s : PPState) : PPState :=
  let s1 := map_feature_to_resids_state sqrtQ s
  let s2 := compute_importance_per_residue_state sqrtQ s1
  if s2.supervised then compute_importance_per_residue_and_cluster_state s2 else s2

/-- `_compute_average_std` (lines 207-213). -/
def compute_average_std_state (s : PPState) : PPState :=
  { s with average_std := np_mean_vec s.nresidues s.std_importance_per_residue }

/-- `PostProcessor.evaluate_performance` (lines 109-122): the ROC-style
score is computed only when supervised with predefined relevant residues;
otherwise `self.auc` is left as it is. -/
def pp_evaluate_performance (s : PPState) : PPState :=
  let s1 := compute_average_std_state s
  match s1.supervised, s1.predefined_relevant_residues with
  | true, some relevant =>
      { s1 with auc := some (compute_area_under_ROC_nat s1.nresidues s1.nclusters
          s1.importance_per_residue_and_cluster relevant) }
  | _, _ => s1

/-- **C9.** Running `average()` then `evaluate_performance()` a second time,
without touching the construction-fixed inputs, reproduces exactly the same
output fields — `importance_per_residue`, `std_importance_per_residue`,
`importance_per_residue_and_cluster`, `average_std` and `auc` — because
`average()` recomputes every derived array from the construction-fixed
fields before any of them is read, so no state leaks between invocations. -/
theorem pp_average_evaluate_idempotent (sqrtQ : ℚ → ℚ) (s : PPState) :
    (pp_evaluate_performance (pp_average sqrtQ
        (pp_evaluate_performance (pp_average sqrtQ s)))).importance_per_residue
      = (pp_evaluate_performance (pp_average sqrtQ s)).importance_per_residue
    ∧ (pp_evaluate_performance (pp_average sqrtQ
        (pp_evaluate_performance (pp_average sqrtQ s)))).std_importance_per_residue
      = (pp_evaluate_performance (pp_average sqrtQ s)).std_importance_per_residue
    ∧ (pp_evaluate_performance (pp_average sqrtQ
        (pp_evaluate_performance (pp_average sqrtQ s)))).importance_per_residue_and_cluster
      = (pp_evaluate_performance (pp_average sqrtQ s)).importance_per_residue_and_cluster
    ∧ (pp_evaluate_performance (pp_average sqrtQ
        (pp_evaluate_performance (pp_average sqrtQ s)))).average_std
      = (pp_evaluate_performance (pp_average sqrtQ s)).average_std
    ∧ (pp_evaluate_performance (pp_average sqrtQ
        (pp_evaluate_performance (pp_average sqrtQ s)))).auc
      = (pp_evaluate_performance (pp_average sqrtQ s)).auc := by
  cases s with
  | mk nf nc fi std ftr sup res pre im sm nr ipr spr iprc sprc avs auc =>
      cases sup <;> cases res <;> cases pre <;>
        simp [pp_average, pp_evaluate_performance, map_feature_to_resids_state,
          compute_importance_per_residue_state,
          compute_importance_per_residue_and_cluster_state,
          compute_average_std_state]

end NNRP
